import Mathlib

/-!
# Verification of the mlc-ai.github.io client-side scripts

Shallow embedding of `js/github-stats.js` and `js/includes.js` into Lean 4,
with theorems settling the specification's claims about them.

JavaScript numbers appearing here are nonnegative integers (star/fork
counts, lengths, indices), modelled as `Nat`.  Strings are modelled as
Lean `String`/`List Char`; JavaScript string indexing is by UTF-16 code
unit, which coincides with per-character indexing for the ASCII data
these scripts handle.
-/

namespace GithubStats

/-- JavaScript `String.prototype.includes` on character lists: `true`
iff `needle` occurs contiguously inside `hay`. -/
def strIncl (needle : List Char) : List Char → Bool
  | [] => needle.isEmpty
  | c :: t => needle.isPrefixOf (c :: t) || strIncl needle t

/-- The literal `github.com/` scanned for by the regex
`/github\.com\/([^\/]+\/[^\/]+)/` in `extractGitHubRepos`
(`js/github-stats.js:36`). -/
def markerL : List Char := "github.com/".toList

/-- The `([^\/]+\/[^\/]+)` part of the repo regex applied right after an
occurrence of the marker: a maximal non-empty run of non-slash
characters, a slash, and a second maximal non-empty run. -/
def splitSeg (after : List Char) : Option (List Char) :=
  let s1 := after.takeWhile (· ≠ '/')
  match after.dropWhile (· ≠ '/') with
  | '/' :: r2 =>
    let s2 := r2.takeWhile (· ≠ '/')
    if s1.isEmpty || s2.isEmpty then none else some (s1 ++ '/' :: s2)
  | _ => none

/-- The match of the regex `/github\.com\/([^\/]+\/[^\/]+)/` against a
string (`js/github-stats.js:36`): the leftmost position at which the
literal `github.com/` is followed by a non-empty slash-free segment, a
slash, and a second non-empty slash-free segment wins, and the capture
is `seg1/seg2` with both segments maximal runs of non-slash characters. -/
def firstTwoSegs : List Char → Option (List Char)
  | [] => none
  | c :: t =>
    if markerL.isPrefixOf (c :: t) then
      match splitSeg ((c :: t).drop markerL.length) with
      | some r => some r
      | none => firstTwoSegs t
    else firstTwoSegs t

/-- The per-anchor body of `extractGitHubRepos`
(`js/github-stats.js:30-44`): match the repo regex against the `href`,
strip a trailing slash from the capture, and keep it only when it is
non-empty, does not end in `.com`, and splits on `/` into exactly two
parts (for a non-empty string, `split('/').length` is one more than the
number of slashes). -/
def repoOfHref (href : String) : Option String :=
  match firstTwoSegs href.toList with
  | none => none
  | some m =>
    let repoPath := if m.getLast? = some '/' then m.dropLast else m
    if !repoPath.isEmpty && !(".com".toList.isSuffixOf repoPath)
        && (repoPath.count '/' + 1 == 2) then
      some (String.mk repoPath)
    else none

/-- One step of the JavaScript `Set` insertion in `extractGitHubRepos`
(`js/github-stats.js:41`): a `Set` keeps insertion order and ignores
re-insertions, and `Array.from` reads it back in that order. -/
def addRepo (acc : List String) (r : String) : List String :=
  if r ∈ acc then acc else acc ++ [r]

/-- `GitHubStatsLoader.extractGitHubRepos` (`js/github-stats.js:16-52`),
as a function of the `href` attributes of the page's anchors in document
order.  The `querySelectorAll` selector `a[href*="github.com"]` keeps
the anchors whose `href` contains `github.com`; each survivor is run
through the regex-and-filter body and inserted into an insertion-ordered
set. -/
def extractGitHubRepos (hrefs : List String) : List String :=
  (hrefs.filter (fun h => strIncl "github.com".toList h.toList)).foldl
    (fun acc h =>
      match repoOfHref h with
      | some r => addRepo acc r
      | none => acc) []

/-- The segments of the URL path after the host marker, as the claim
reads it: everything after the first occurrence of `github.com/`,
split on `/`.  Used only to state the claim, not taken from the code. -/
def segsAfterMarker : List Char → Option (List (List Char))
  | [] => none
  | c :: t =>
    if markerL.isPrefixOf (c :: t) then
      some (((c :: t).drop markerL.length).splitOn '/')
    else segsAfterMarker t

/-- The claim's per-anchor criterion: the URL path after the host marker
has exactly two non-empty segments. -/
def exactlyTwoSegs (href : String) : Prop :=
  ∃ segs, segsAfterMarker href.toList = some segs ∧
    (segs.filter (· ≠ [])).length = 2

instance (href : String) : Decidable (exactlyTwoSegs href) := by
  unfold exactlyTwoSegs
  cases segsAfterMarker href.toList with
  | none => exact .isFalse (by simp)
  | some segs =>
    refine decidable_of_iff ((segs.filter (· ≠ [])).length = 2) ?_
    simp

/-- `GitHubStatsLoader.fetchRepoStats` result (`js/github-stats.js:57-84`):
`none` models the `null` returned on a failed lookup. -/
structure RepoStats where
  name : String
  stars : Nat
  forks : Nat
deriving DecidableEq

/-- The totals object returned by `fetchAllStats`. -/
structure StatsTotals where
  stars : Nat
  forks : Nat
deriving DecidableEq

/-- `GitHubStatsLoader.fetchAllStats` (`js/github-stats.js:89-121`) as a
function of the loader's current `repos` field, the result the
extraction pass would produce, and an oracle giving each per-repository
lookup's outcome.  Returns the totals together with the list of
repositories actually looked up over HTTP (in request order). -/
def fetchAllStats (repos extracted : List String)
    (lookup : String → Option RepoStats) : StatsTotals × List String :=
  let repos := if repos.isEmpty then extracted else repos
  if repos.isEmpty then (⟨0, 0⟩, [])
  else
    let results := repos.map lookup
    let totals := results.foldl
      (fun (t : StatsTotals) r =>
        match r with
        | some s => ⟨t.stars + s.stars, t.forks + s.forks⟩
        | none => t) ⟨0, 0⟩
    (totals, repos)

/-- `toFixed(1)` of the exact rational `num / scale` (`scale > 0`),
rounding to the nearest tenth with ties away from zero, as ECMAScript
`Number.prototype.toFixed` does.  The concrete values the claims
evaluate are exactly representable, so the binary64 detour in the
source is lossless there. -/
def toFixed1 (num scale : Nat) : String :=
  let n := (10 * num + scale / 2) / scale
  Nat.repr (n / 10) ++ "." ++ Nat.repr (n % 10)

/-- `GitHubStatsLoader.formatNumber` (`js/github-stats.js:126-133`). -/
def formatNumber (num : Nat) : String :=
  if num ≥ 1000000 then toFixed1 num 1000000 ++ "M"
  else if num ≥ 1000 then toFixed1 num 1000 ++ "K"
  else Nat.repr num

end GithubStats

namespace Includes

/-- Outcome of a browser `fetch`: the promise rejects only on a network
(transport) error; an HTTP error status still resolves with `ok = false`
and the error page's body readable via `text()`. -/
inductive FetchOutcome where
  | networkError
  | response (ok : Bool) (body : String)
deriving DecidableEq

/-- The `loadHeader` chain of `js/includes.js:21-30`, as a function from
the header container's current content and the fetch outcome to the
container's content afterwards.  The code reads `r.text()` and assigns
`innerHTML` without consulting `r.ok`; only a rejected fetch reaches the
`catch(() => ...)` handler, which swallows the error (no user-visible
error state). -/
def loadHeader (container : String) (res : FetchOutcome) : String :=
  match res with
  | .networkError => container
  | .response _ body => body

/-- The `loadFooter` chain of `js/includes.js:32-39`; identical content
handling to `loadHeader`, targeting the footer container. -/
def loadFooter (container : String) (res : FetchOutcome) : String :=
  match res with
  | .networkError => container
  | .response _ body => body

/-- The claim's failure predicate for C5: a network error or a
non-success HTTP status. -/
def failedFetch : FetchOutcome → Prop
  | .networkError => True
  | .response ok _ => ok = false

/-- Characters matched by `\s` in the `split(/\s+/)` calls of
`js/includes.js` (the inputs at hand only ever contain plain spaces). -/
def isWsChar (c : Char) : Bool :=
  c = ' ' || c = '\t' || c = '\n' || c = '\r' || c = '\x0c' || c = '\x0b'

/-- Single pass of the whitespace split: `inWs` records whether the scan
is inside a run of whitespace, `cur` the current token reversed, `acc`
the finished tokens reversed. -/
def jsSplitWsGo : List Char → Bool → List Char → List (List Char) → List (List Char)
  | [], _, cur, acc => (cur.reverse :: acc).reverse
  | c :: t, inWs, cur, acc =>
    if isWsChar c then
      if inWs then jsSplitWsGo t true cur acc
      else jsSplitWsGo t true [] (cur.reverse :: acc)
    else jsSplitWsGo t false (c :: cur) acc

/-- JavaScript `String.prototype.split(/\s+/)` on character lists: split
at each maximal run of whitespace; a leading run contributes a leading
empty token and a trailing run a trailing empty token, and the result is
never empty (`"".split` gives `[""]`). -/
def jsSplitWs (l : List Char) : List (List Char) :=
  jsSplitWsGo l false [] []

/-- JavaScript `String.prototype.replace(',', '')` (`js/includes.js:76`):
with a plain-string pattern, `replace` removes only the first occurrence. -/
def jsReplaceFirstComma : List Char → List Char
  | [] => []
  | c :: t => if c = ',' then t else c :: jsReplaceFirstComma t

/-- JavaScript `String.prototype.padStart(2, '0')`. -/
def padStart2 (s : List Char) : List Char :=
  if s.length ≥ 2 then s else List.replicate (2 - s.length) '0' ++ s

/-- `String(n).padStart(2, '0')` for a nonnegative integer. -/
def pad2 (n : Nat) : String := String.mk (padStart2 (Nat.repr n).toList)

/-- The `months` lookup table of `parseDateString`
(`js/includes.js:70-74`). -/
def monthsTable : List (List Char × String) :=
  [("jan".toList, "01"), ("feb".toList, "02"), ("mar".toList, "03"),
   ("apr".toList, "04"), ("may".toList, "05"), ("jun".toList, "06"),
   ("jul".toList, "07"), ("aug".toList, "08"), ("sep".toList, "09"),
   ("oct".toList, "10"), ("nov".toList, "11"), ("dec".toList, "12")]

/-- Number of days in a calendar month (with Gregorian leap years), used
to model which date strings the host `Date` parser accepts. -/
def daysInMonth (y m : Nat) : Nat :=
  if m = 2 then (if y % 4 = 0 && (y % 100 != 0 || y % 400 = 0) then 29 else 28)
  else if m = 4 || m = 6 || m = 9 || m = 11 then 30 else 31

/-- Valid calendar date check. -/
def validDate (y m d : Nat) : Bool :=
  1 ≤ m && m ≤ 12 && 1 ≤ d && d ≤ daysInMonth y m

/-- All-digit token to number (`none` when empty or non-digit). -/
def digitsToNat : List Char → Option Nat
  | [] => none
  | l =>
    if l.all (·.isDigit) then
      some (l.foldl (fun acc c => 10 * acc + (c.toNat - 48)) 0)
    else none

/-- Parse of an ISO `YYYY-MM-DD` date string into (year, month, day);
`none` on anything else.  Models which normalized date strings the host
`new Date(string)` accepts as a valid date. -/
def parseIsoDate (s : String) : Option (Nat × Nat × Nat) :=
  match s.toList.splitOn '-' with
  | [ys, ms, ds] =>
    if ys.length = 4 && ms.length = 2 && ds.length = 2 then
      match digitsToNat ys, digitsToNat ms, digitsToNat ds with
      | some y, some m, some d => if validDate y m d then some (y, m, d) else none
      | _, _, _ => none
    else none
  | _ => none

/-- English month names, full and three-letter, to month number. -/
def monthNames : List (List Char × Nat) :=
  [("january".toList, 1), ("february".toList, 2), ("march".toList, 3),
   ("april".toList, 4), ("may".toList, 5), ("june".toList, 6),
   ("july".toList, 7), ("august".toList, 8), ("september".toList, 9),
   ("october".toList, 10), ("november".toList, 11), ("december".toList, 12),
   ("jan".toList, 1), ("feb".toList, 2), ("mar".toList, 3), ("apr".toList, 4),
   ("jun".toList, 6), ("jul".toList, 7), ("aug".toList, 8), ("sep".toList, 9),
   ("oct".toList, 10), ("nov".toList, 11), ("dec".toList, 12)]

/-- Strip one trailing comma from a token (`"7,"` → `"7"`). -/
def stripTrailingComma (tok : List Char) : List Char :=
  if tok.getLast? = some ',' then tok.dropLast else tok

/-- Model of the host-environment `new Date(string)` parser combined
with local `getFullYear`/`getMonth`/`getDate`, for the date shapes this
repository feeds it: `"Mon D, YYYY"` / `"Month D, YYYY"` (English month
names, optional comma) and ISO `"YYYY-MM-DD"`, accepted only for valid
calendar dates.  Everything else is modelled as an invalid date (`none`,
i.e. `NaN` time value): the major engines reject date strings with
unrecognized tokens or out-of-range components.  This is a platform
primitive, not repository code, so it is modelled rather than
translated. -/
def jsNewDate (s : String) : Option (Nat × Nat × Nat) :=
  match parseIsoDate s with
  | some r => some r
  | none =>
    match (jsSplitWs s.toList).filter (· ≠ []) with
    | [mtok, dtok, ytok] =>
      match (monthNames.lookup (mtok.map Char.toLower)),
          digitsToNat (stripTrailingComma dtok), digitsToNat ytok with
      | some m, some d, some y =>
        if ytok.length = 4 && validDate y m d then some (y, m, d) else none
      | _, _, _ => none
    | _ => none

/-- `BlogLoader.parseDateString` (`js/includes.js:62-94`).  The general
`new Date` parse is tried first; if it yields an invalid date, the
manual fallback lower-cases the input, removes the first comma, splits
on whitespace, and — whenever there are at least three tokens —
reassembles `year-month-day` from the month table, `padStart`-ed day and
raw year token.  A failed month lookup leaves `month` as JavaScript
`undefined`, which the template literal coerces to the text
`"undefined"`.  The empty string models the falsy argument guard. -/
def parseDateString (dateStr : String) : Option String :=
  if dateStr = "" then none
  else
    match jsNewDate dateStr with
    | some (y, m, d) => some (Nat.repr y ++ "-" ++ pad2 m ++ "-" ++ pad2 d)
    | none =>
      let parts := jsSplitWs (jsReplaceFirstComma (dateStr.toList.map Char.toLower))
      if parts.length ≥ 3 then
        let month := (monthsTable.lookup ((parts.getD 0 []).take 3)).getD "undefined"
        let day := padStart2 (parts.getD 1 [])
        let year := parts.getD 2 []
        some (String.mk year ++ "-" ++ month ++ "-" ++ String.mk day)
      else none

/-- JavaScript `haystack.includes(needle)` on strings. -/
def strContains (needle hay : String) : Bool :=
  GithubStats.strIncl needle.toList hay.toList

/-- JavaScript `String.prototype.toLowerCase` (ASCII mapping; the titles
and bodies at hand are ASCII). -/
def jsToLower (s : String) : String :=
  String.mk (s.toList.map Char.toLower)

set_option linter.unusedVariables false in
/-- `BlogLoader.determineCategory` (`js/includes.js:293-308`).  The
`lowerBody` binding mirrors the source's unused local: no branch ever
consults the body argument. -/
def determineCategory (title body : String) : String :=
  let lowerTitle := jsToLower title
  let lowerBody := jsToLower body
  if strContains "tutorial" lowerTitle || strContains "guide" lowerTitle
      || strContains "how to" lowerTitle then "tutorials"
  else if strContains "optimization" lowerTitle || strContains "optimizing" lowerTitle
      || strContains "performance" lowerTitle then "optimization"
  else if strContains "deployment" lowerTitle || strContains "deploy" lowerTitle
      || strContains "serving" lowerTitle || strContains "mobile" lowerTitle
      || strContains "android" lowerTitle || strContains "gpu" lowerTitle then "deployment"
  else if strContains "research" lowerTitle || strContains "paper" lowerTitle
      || strContains "study" lowerTitle then "research"
  else "deployment"

/-- Whether any `determineCategory` keyword occurs in the lower-cased
title (the condition under which some non-default branch is taken). -/
def anyCategoryKeyword (title : String) : Bool :=
  let lowerTitle := jsToLower title
  strContains "tutorial" lowerTitle || strContains "guide" lowerTitle
  || strContains "how to" lowerTitle
  || strContains "optimization" lowerTitle || strContains "optimizing" lowerTitle
  || strContains "performance" lowerTitle
  || strContains "deployment" lowerTitle || strContains "deploy" lowerTitle
  || strContains "serving" lowerTitle || strContains "mobile" lowerTitle
  || strContains "android" lowerTitle || strContains "gpu" lowerTitle
  || strContains "research" lowerTitle || strContains "paper" lowerTitle
  || strContains "study" lowerTitle

/-- A blog post as built by `fetchPostsFromBlog` (`js/includes.js:153-159`)
and optionally extended by `enrichPostData`; the three enrichment fields
are `none` until (and unless) enrichment sets them. -/
structure Post where
  title : String
  url : String
  date : Option String
  formattedDate : String
  rawDate : Option String
  excerpt : Option String := none
  category : Option String := none
  readTime : Option String := none
deriving DecidableEq

/-- What `enrichPostData` reads out of a successfully fetched post page:
the `content` attribute of `meta[name="description"]` (when the tag and
attribute exist) and the text of the first paragraph matched by
`article p, .post-content p, main p` (when one exists). -/
structure PostDoc where
  metaDescription : Option String
  firstParagraph : Option String
deriving DecidableEq

/-- The default excerpt used by `enrichPostData`. -/
def defaultExcerpt : String := "Read the full article to learn more."

/-- Outcome of fetching a post's own page in `enrichPostData`: network
error (rejected promise), or a response with its `ok` flag and — for the
code paths that read it — the parsed document. -/
inductive EnrichOutcome where
  | networkError
  | response (ok : Bool) (doc : PostDoc)
deriving DecidableEq

/-- `BlogLoader.enrichPostData` (`js/includes.js:183-233`) as a function
of the post and the outcome of fetching the post's own page.  A rejected
fetch lands in the `catch` block, which returns the post extended with
default excerpt/category/read-time; a resolved response with `!ok`
returns the post unchanged (`js/includes.js:187`); a successful response
derives the excerpt (meta description, else the trimmed first paragraph,
truncated to 200 characters plus an ellipsis), the category from the
title and excerpt, and a read-time estimate of
`max 3 (ceil (wordCount / 200))` minutes from the excerpt's word count. -/
def enrichPostData (post : Post) (res : EnrichOutcome) : Post :=
  match res with
  | .networkError =>
    { post with
        excerpt := some defaultExcerpt,
        category := some (determineCategory post.title ""),
        readTime := some "5 min read" }
  | .response ok doc =>
    if !ok then post
    else
      let excerpt0 := doc.metaDescription.getD ""
      let excerpt1 :=
        if excerpt0 = "" then (doc.firstParagraph.map String.trim).getD "" else excerpt0
      let excerpt :=
        if excerpt1.length > 200 then String.mk (excerpt1.toList.take 200) ++ "..."
        else excerpt1
      let category := determineCategory post.title excerpt
      let wordCount := (jsSplitWs excerpt.toList).length
      let readTime := Nat.repr (max 3 ((wordCount + 199) / 200)) ++ " min read"
      { post with
          excerpt := some (if excerpt = "" then defaultExcerpt else excerpt),
          category := some category,
          readTime := some readTime }

/-- The date value used by the sort comparator of `fetchPostsFromBlog`
(`js/includes.js:170`): `new Date(dateString)` on a normalized date,
`none` modelling an invalid date (`NaN` time value).  The encoding
`y * 10000 + m * 100 + d` is a strictly monotone recoding of the epoch
millisecond value over valid calendar dates; the sort consumes only
signs of differences, so any strictly monotone injection is a faithful
model. -/
def dateVal (s : String) : Option Int :=
  (parseIsoDate s).map (fun (ymd : Nat × Nat × Nat) =>
    (ymd.1 * 10000 + ymd.2.1 * 100 + ymd.2.2 : Int))

/-- The comparator passed to `posts.sort` in `fetchPostsFromBlog`
(`js/includes.js:166-171`).  Undated posts compare after dated ones;
two dated posts compare by `new Date(b.date) - new Date(a.date)`
(descending); per ECMAScript `SortCompare`, a `NaN` comparator result
is coerced to `+0`. -/
def postCompare (a b : Post) : Int :=
  match a.date, b.date with
  | none, none => 0
  | none, some _ => 1
  | some _, none => -1
  | some da, some db =>
    match dateVal da, dateVal db with
    | some x, some y => y - x
    | _, _ => 0

/-- Stable insertion step: the incoming element (later in scrape order)
is placed after every element it does not strictly precede. -/
def insertSorted (x : Post) : List Post → List Post
  | [] => [x]
  | y :: ys => if postCompare x y < 0 then x :: y :: ys else y :: insertSorted x ys

/-- The `posts.sort(...)` call of `fetchPostsFromBlog`
(`js/includes.js:166-171`).  ECMAScript requires `Array.prototype.sort`
to be stable and consistent with the comparator, which (for a consistent
comparator) determines the output uniquely; a stable insertion sort is
such a sort. -/
def sortPosts (ps : List Post) : List Post :=
  ps.foldl (fun acc p => insertSorted p acc) []

/-- The sort key a post contributes to the comparator: `none` for an
undated post, `some (dateVal d)` for a dated one. -/
def postKey (p : Post) : Option (Option Int) :=
  p.date.map dateVal

/-- The comparator as a function of the two sort keys. -/
def keyCompare : Option (Option Int) → Option (Option Int) → Int
  | none, none => 0
  | none, some _ => 1
  | some _, none => -1
  | some kx, some ky =>
    match kx, ky with
    | some x, some y => y - x
    | _, _ => 0

/-- A post's date, when present, is a date the comparator can evaluate
(no `NaN`).  Hypothesis under which "sorted descending by normalized
date" is meaningful. -/
def validPost (p : Post) : Bool :=
  match p.date with
  | none => true
  | some d => (dateVal d).isSome

/-- `a` may precede `b` in a list sorted descending by normalized date
with undated posts last. -/
def postOrdered (a b : Post) : Prop :=
  match a.date, b.date with
  | none, some _ => False
  | some da, some db => ∀ x y, dateVal da = some x → dateVal db = some y → y ≤ x
  | _, _ => True

/-- One enrichment-loop event of `fetchAllPosts`
(`js/includes.js:380-391`): a batch of concurrently issued fetches
(`Promise.all` over the batch), or the fixed politeness delay. -/
inductive FetchEvent (α : Type) where
  | batch (posts : List α)
  | pause (ms : Nat)
deriving DecidableEq

/-- The successive `posts.slice(i, i + 5)` batches of the enrichment
loop (`js/includes.js:380-385`). -/
def chunks5 {α : Type} (ps : List α) : List (List α) :=
  if ps.isEmpty then [] else ps.take 5 :: chunks5 (ps.drop 5)
termination_by ps.length
decreasing_by
  rename_i h
  have : ps.length ≠ 0 := by
    cases ps with
    | nil => exact absurd rfl h
    | cons _ _ => simp
  simp only [List.length_drop]
  omega

/-- The event sequence emitted by the enrichment loop of `fetchAllPosts`
(`js/includes.js:380-391`): for each loop iteration a batch of (up to 5)
concurrent fetches, followed — only when `i + 5 < posts.length`, i.e.
when further posts remain — by the fixed 100 ms delay. -/
def enrichSchedule {α : Type} (ps : List α) : List (FetchEvent α) :=
  if ps.isEmpty then []
  else
    FetchEvent.batch (ps.take 5) ::
      (if 5 < ps.length then FetchEvent.pause 100 :: enrichSchedule (ps.drop 5) else [])
termination_by ps.length
decreasing_by
  simp only [List.length_drop]
  omega

/-- A batch event per chunk with one 100 ms pause strictly between
consecutive batches and none after the last: the shape the claim
ascribes to the schedule. -/
def pausesBetween {α : Type} : List (List α) → List (FetchEvent α)
  | [] => []
  | [b] => [FetchEvent.batch b]
  | b :: bs => FetchEvent.batch b :: FetchEvent.pause 100 :: pausesBetween bs

/-- The grid part of `BlogLoader.renderPosts` (`js/includes.js:593-611`):
filter the in-memory posts by the active category (`"all"` keeps all),
then drop the first element (`filteredPosts.slice(1)`) before rendering
cards.  Returns the posts whose cards are written into the grid, in
order. -/
def gridPosts (posts : List Post) (currentCategory : String) : List Post :=
  let filteredPosts :=
    if currentCategory = "all" then posts
    else posts.filter (fun p => p.category == some currentCategory)
  filteredPosts.drop 1

/-- The featured post rendered by `init` via `renderFeaturedArticle`
(`js/includes.js:679`): always `this.posts[0]`, independent of the
active category. -/
def featuredPost (posts : List Post) : Option Post :=
  posts.head?

/-- A concrete scraped post (no enrichment fields yet), used as a test
input. -/
def samplePost : Post :=
  { title := "WebLLM update"
    url := "https://blog.mlc.ai/2025/01/07/webllm-update"
    date := some "2025-01-07"
    formattedDate := "January 7, 2025"
    rawDate := some "Jan 7, 2025" }

/-- A concrete enriched post in category `research`; the overall most
recent post of a three-post test page. -/
def postA : Post :=
  { title := "A", url := "ua", date := some "2025-03-01", formattedDate := ""
    rawDate := none, excerpt := some "ea", category := some "research"
    readTime := some "3 min read" }

/-- A concrete enriched post, the most recent of category `deployment`
but not the overall most recent. -/
def postB : Post :=
  { title := "B", url := "ub", date := some "2025-02-01", formattedDate := ""
    rawDate := none, excerpt := some "eb", category := some "deployment"
    readTime := some "3 min read" }

/-- A concrete enriched post, the older `deployment` post. -/
def postC : Post :=
  { title := "C", url := "uc", date := some "2025-01-01", formattedDate := ""
    rawDate := none, excerpt := some "ec", category := some "deployment"
    readTime := some "3 min read" }

/-- A concrete scraped post whose date text could not be normalized. -/
def postU : Post :=
  { title := "U", url := "uu", date := none, formattedDate := ""
    rawDate := some "sometime soon" }

end Includes

namespace GithubStats

theorem strIncl_of_pre (n : List Char) :
    ∀ (pre rest : List Char), n.isPrefixOf rest → strIncl n (pre ++ rest) = true := by
  intro pre
  induction pre with
  | nil =>
    intro rest h
    cases rest with
    | nil =>
      have : n = [] := List.prefix_nil.mp (List.isPrefixOf_iff_prefix.mp h)
      simp [strIncl, this]
    | cons c t => simp [strIncl, h]
  | cons c pre ih =>
    intro rest h
    simp [List.cons_append, strIncl, ih rest h]

theorem splitSeg_sound (after cap : List Char) (h : splitSeg after = some cap) :
    ∃ s1 s2 post, cap = s1 ++ '/' :: s2 ∧ s1 ≠ [] ∧ s2 ≠ [] ∧
      (∀ c ∈ s1, c ≠ '/') ∧ (∀ c ∈ s2, c ≠ '/') ∧
      after = s1 ++ '/' :: s2 ++ post := by
  unfold splitSeg at h
  rcases hd : after.dropWhile (· ≠ '/') with _ | ⟨c, r2⟩ <;> rw [hd] at h
  · exact absurd h (by simp)
  by_cases hc : c = '/'
  · subst hc
    simp only at h
    split at h
    · exact absurd h (by simp)
    · rename_i hne
      simp only [Bool.or_eq_true, not_or, Bool.not_eq_true] at hne
      refine ⟨after.takeWhile (· ≠ '/'), r2.takeWhile (· ≠ '/'),
        r2.dropWhile (· ≠ '/'), (Option.some.inj h).symm, ?_, ?_, ?_, ?_, ?_⟩
      · intro h'; rw [h'] at hne; simp at hne
      · intro h'; rw [h'] at hne; simp at hne
      · intro x hx; simpa using List.mem_takeWhile_imp hx
      · intro x hx; simpa using List.mem_takeWhile_imp hx
      · conv_lhs => rw [← List.takeWhile_append_dropWhile (· ≠ '/') after]
        rw [hd, ← List.takeWhile_append_dropWhile (· ≠ '/') r2]
        simp
  · exfalso
    have := List.head?_dropWhile_not (· ≠ '/') after
    rw [hd] at this
    simp only [List.head?_cons, Option.mem_def, Option.some.injEq] at this
    exact hc (by simpa using this)

theorem takeWhile_all_append (p : Char → Bool) (a b : List Char)
    (h : ∀ x ∈ a, p x = true) : (a ++ b).takeWhile p = a ++ b.takeWhile p := by
  induction a with
  | nil => simp
  | cons c t ih =>
    have hc : p c = true := h c (by simp)
    simp [List.cons_append, List.takeWhile_cons, hc, ih (fun x hx => h x (by simp [hx]))]

theorem dropWhile_all_append (p : Char → Bool) (a b : List Char)
    (h : ∀ x ∈ a, p x = true) : (a ++ b).dropWhile p = b.dropWhile p := by
  induction a with
  | nil => simp
  | cons c t ih =>
    have hc : p c = true := h c (by simp)
    simp [List.cons_append, List.dropWhile_cons, hc, ih (fun x hx => h x (by simp [hx]))]

theorem splitSeg_complete (s1 s2 post : List Char) (h1 : s1 ≠ []) (h2 : s2 ≠ [])
    (hs1 : ∀ c ∈ s1, c ≠ '/') (hs2 : ∀ c ∈ s2, c ≠ '/') :
    splitSeg (s1 ++ '/' :: s2 ++ post) = some (s1 ++ '/' :: (s2 ++ post).takeWhile (· ≠ '/')) := by
  have hp1 : ∀ x ∈ s1, (decide (x ≠ '/')) = true := fun x hx => by simpa using hs1 x hx
  have htake : (s1 ++ '/' :: s2 ++ post).takeWhile (· ≠ '/') = s1 := by
    rw [List.append_assoc, takeWhile_all_append _ _ _ hp1]
    simp [List.takeWhile_cons]
  have hdrop : (s1 ++ '/' :: s2 ++ post).dropWhile (· ≠ '/') = '/' :: (s2 ++ post) := by
    rw [List.append_assoc, dropWhile_all_append _ _ _ hp1]
    simp [List.dropWhile_cons]
  have htk2 : ((s2 ++ post).takeWhile (· ≠ '/')).isEmpty = false := by
    cases s2 with
    | nil => exact absurd rfl h2
    | cons c t =>
      have hcne : c ≠ '/' := hs2 c (by simp)
      simp [List.takeWhile_cons, hcne]
  have hemp1 : s1.isEmpty = false := by
    cases s1 with
    | nil => exact absurd rfl h1
    | cons _ _ => rfl
  unfold splitSeg
  rw [hdrop]
  simp only [htake]
  rw [if_neg (by rw [hemp1, htk2]; simp)]

theorem firstTwoSegs_eq (l : List Char) :
    firstTwoSegs l =
      if markerL.isPrefixOf l then
        match splitSeg (l.drop markerL.length) with
        | some r => some r
        | none => firstTwoSegs l.tail
      else firstTwoSegs l.tail := by
  cases l with
  | nil => simp [firstTwoSegs, show markerL.isPrefixOf ([] : List Char) = false from rfl]
  | cons c t => rfl

theorem firstTwoSegs_sound : ∀ (l cap : List Char), firstTwoSegs l = some cap →
    ∃ pre s1 s2 post, cap = s1 ++ '/' :: s2 ∧ s1 ≠ [] ∧ s2 ≠ [] ∧
      (∀ c ∈ s1, c ≠ '/') ∧ (∀ c ∈ s2, c ≠ '/') ∧
      l = pre ++ markerL ++ s1 ++ '/' :: s2 ++ post := by
  intro l
  induction l with
  | nil => intro cap h; exact absurd h (by simp [firstTwoSegs])
  | cons c t ih =>
    intro cap h
    rw [firstTwoSegs] at h
    split at h
    · rename_i hpre
      rcases hsp : splitSeg ((c :: t).drop markerL.length) with _ | r <;> rw [hsp] at h
      · obtain ⟨pre, s1, s2, post, h1, h2, h3, h4, h5, h6⟩ := ih cap h
        exact ⟨c :: pre, s1, s2, post, h1, h2, h3, h4, h5, by simp [h6]⟩
      · obtain ⟨rest, hrest⟩ := List.isPrefixOf_iff_prefix.mp hpre
        obtain ⟨s1, s2, post, h1, h2, h3, h4, h5, h6⟩ :=
          splitSeg_sound _ _ hsp
        have hcap : cap = r := by simpa using h.symm
        have hdrop : (c :: t).drop markerL.length = rest := by
          rw [← hrest]; exact List.drop_left markerL rest
        rw [hdrop] at h6
        exact ⟨[], s1, s2, post, hcap ▸ h1, h2, h3, h4, h5,
          by rw [List.nil_append, ← hrest, h6]; simp⟩
    · obtain ⟨pre, s1, s2, post, h1, h2, h3, h4, h5, h6⟩ := ih cap h
      exact ⟨c :: pre, s1, s2, post, h1, h2, h3, h4, h5, by simp [h6]⟩

theorem firstTwoSegs_complete :
    ∀ (pre s1 s2 post : List Char), s1 ≠ [] → s2 ≠ [] →
      (∀ c ∈ s1, c ≠ '/') → (∀ c ∈ s2, c ≠ '/') →
      (firstTwoSegs (pre ++ markerL ++ s1 ++ '/' :: s2 ++ post)).isSome := by
  intro pre
  induction pre with
  | nil =>
    intro s1 s2 post h1 h2 hs1 hs2
    simp only [List.nil_append, List.append_assoc, List.cons_append]
    have hpre : markerL.isPrefixOf (markerL ++ (s1 ++ '/' :: (s2 ++ post))) = true :=
      List.isPrefixOf_iff_prefix.mpr (List.prefix_append _ _)
    have hdrop : (markerL ++ (s1 ++ '/' :: (s2 ++ post))).drop markerL.length
        = s1 ++ '/' :: (s2 ++ post) := List.drop_left markerL _
    have hsp : splitSeg (s1 ++ '/' :: (s2 ++ post)) =
        some (s1 ++ '/' :: (s2 ++ post).takeWhile (· ≠ '/')) := by
      have := splitSeg_complete s1 s2 post h1 h2 hs1 hs2
      simpa [List.append_assoc, List.cons_append] using this
    rw [firstTwoSegs_eq, hpre, hdrop, hsp]
    simp
  | cons c pre ih =>
    intro s1 s2 post h1 h2 hs1 hs2
    have ihs := ih s1 s2 post h1 h2 hs1 hs2
    simp only [List.append_assoc, List.cons_append] at ihs ⊢
    rw [firstTwoSegs_eq]
    split
    · rcases hsp : splitSeg ((c :: (pre ++ (markerL ++ (s1 ++ '/' :: (s2 ++ post))))).drop
          markerL.length) with _ | r
      · simpa using ihs
      · simp
    · simpa using ihs

theorem getLast?_no_slash :
    ∀ (l : List Char), (∀ c ∈ l, c ≠ '/') → ∀ x, l.getLast? = some x → x ≠ '/'
  | [], _, x, hx => by simp at hx
  | [a], h, x, hx => by
    simp only [List.getLast?_singleton, Option.some.injEq] at hx
    exact hx ▸ h a (by simp)
  | a :: b :: t, h, x, hx => by
    rw [List.getLast?_cons_cons] at hx
    exact getLast?_no_slash (b :: t) (fun c hc => h c (List.mem_cons_of_mem a hc)) x hx

theorem repoOfHref_eq (h : String) :
    repoOfHref h = match firstTwoSegs h.toList with
      | none => none
      | some cap =>
        if ".com".toList.isSuffixOf cap then none else some (String.mk cap) := by
  unfold repoOfHref
  rcases hfs : firstTwoSegs h.toList with _ | cap
  · rfl
  obtain ⟨pre, s1, s2, post, hcap, h1, h2, hs1, hs2, -⟩ := firstTwoSegs_sound _ _ hfs
  have hs2' : ∀ c ∈ '/' :: s2, c ∈ s2 ∨ c = '/' := by
    intro c hc
    rcases List.mem_cons.mp hc with h' | h'
    · exact Or.inr h'
    · exact Or.inl h'
  have hlast : cap.getLast? ≠ some '/' := by
    rw [hcap, List.getLast?_append_of_ne_nil _ (by simp)]
    cases s2 with
    | nil => exact absurd rfl h2
    | cons b t =>
      rw [List.getLast?_cons_cons]
      intro hx
      exact getLast?_no_slash (b :: t) (fun c hc => hs2 c hc) '/' hx rfl
  have hemp : cap.isEmpty = false := by
    rw [hcap]
    cases s1 with
    | nil => exact absurd rfl h1
    | cons _ _ => rfl
  have hcount : cap.count '/' = 1 := by
    rw [hcap, List.count_append, List.count_cons_self,
      List.count_eq_zero.mpr (fun hmem => hs1 '/' hmem rfl),
      List.count_eq_zero.mpr (fun hmem => hs2 '/' hmem rfl)]
  cases hsuf : ".com".toList.isSuffixOf cap <;>
    simp [if_neg hlast, hemp, hcount, hsuf, ← List.isSuffixOf_iff_suffix] <;>
    simp at hsuf <;> simp [hsuf]

theorem repoOfHref_marker (h : String) (r : String) (hr : repoOfHref h = some r) :
    strIncl "github.com".toList h.toList = true := by
  rcases hfs : firstTwoSegs h.toList with _ | cap
  · rw [repoOfHref_eq, hfs] at hr; simp at hr
  obtain ⟨pre, s1, s2, post, -, -, -, -, -, hdec⟩ := firstTwoSegs_sound _ _ hfs
  have hdec' : h.toList = pre ++ (markerL ++ (s1 ++ '/' :: (s2 ++ post))) := by
    rw [hdec]; simp [List.append_assoc]
  rw [hdec']
  apply strIncl_of_pre
  apply List.isPrefixOf_iff_prefix.mpr
  exact List.IsPrefix.trans ⟨['/'], rfl⟩ (List.prefix_append _ _)

theorem extract_eq_filterMap (hrefs : List String) :
    extractGitHubRepos hrefs = (hrefs.filterMap repoOfHref).foldl addRepo [] := by
  unfold extractGitHubRepos
  suffices h : ∀ (acc : List String),
      ((hrefs.filter fun h => strIncl "github.com".toList h.toList).foldl
        (fun acc h => match repoOfHref h with | some r => addRepo acc r | none => acc) acc)
      = (hrefs.filterMap repoOfHref).foldl addRepo acc by
    exact h []
  induction hrefs with
  | nil => intro acc; rfl
  | cons x t ih =>
    intro acc
    by_cases hx : strIncl "github.com".toList x.toList = true
    · rw [List.filter_cons_of_pos (by simpa using hx), List.filterMap_cons, List.foldl_cons]
      cases hrx : repoOfHref x with
      | some r => simp only [hrx]; exact ih _
      | none => simp only [hrx]; exact ih _
    · have hnone : repoOfHref x = none := by
        cases hrx : repoOfHref x with
        | none => rfl
        | some r => exact absurd (repoOfHref_marker x r hrx) hx
      rw [List.filter_cons_of_neg (by simpa using hx), List.filterMap_cons, hnone]
      exact ih acc

theorem foldl_addRepo (L : List String) :
    L.foldl addRepo [] = L.reverse.dedup.reverse := by
  induction L using List.reverseRecOn with
  | nil => rfl
  | append_singleton L x ih =>
    rw [List.foldl_append, List.foldl_cons, List.foldl_nil, ih, List.reverse_append]
    simp only [List.reverse_cons, List.reverse_nil, List.nil_append, List.singleton_append]
    by_cases hx : x ∈ L.reverse
    · rw [List.dedup_cons_of_mem hx]
      unfold addRepo
      rw [if_pos (by simp [List.mem_reverse, List.mem_dedup, hx])]
    · rw [List.dedup_cons_of_not_mem hx, List.reverse_cons]
      unfold addRepo
      rw [if_neg (by simp [List.mem_reverse, List.mem_dedup, hx])]

/-- C1, counterexample.  The claim says an identifier is yielded only if
the URL path after the host marker has exactly two non-empty segments.
The anchor `https://github.com/mlc-ai/web-llm/tree/main` has four
non-empty path segments after the marker, yet `extractGitHubRepos`
yields the identifier `mlc-ai/web-llm` for it: the regex captures the
first two segments and ignores the rest. -/
theorem extractGitHubRepos_two_segs_claim_false :
    extractGitHubRepos ["https://github.com/mlc-ai/web-llm/tree/main"] = ["mlc-ai/web-llm"]
    ∧ ¬ exactlyTwoSegs "https://github.com/mlc-ai/web-llm/tree/main" := by
  constructor
  · rfl
  · decide

/-- C1, amended.  For the anchors of the projects page (in document
order), `extractGitHubRepos` yields, deduplicated keeping first
occurrences and in order of first appearance, one identifier per anchor
on which the repo regex matches: an identifier is produced iff some
occurrence of `github.com/` in the `href` is followed by at least two
non-empty `/`-separated segments, the captured identifier is the first
two such segments at the leftmost matching occurrence (extra path
segments beyond the second are ignored rather than causing rejection),
and a capture ending in `.com` is rejected. -/
theorem extractGitHubRepos_spec (hrefs : List String) :
    extractGitHubRepos hrefs = ((hrefs.filterMap repoOfHref).reverse.dedup).reverse
    ∧ (extractGitHubRepos hrefs).Nodup
    ∧ (∀ h r, repoOfHref h = some r → r ∈ extractGitHubRepos (hrefs ++ [h]))
    ∧ (∀ l cap, firstTwoSegs l = some cap →
        ∃ pre s1 s2 post, cap = s1 ++ '/' :: s2 ∧ s1 ≠ [] ∧ s2 ≠ [] ∧
          (∀ c ∈ s1, c ≠ '/') ∧ (∀ c ∈ s2, c ≠ '/') ∧
          l = pre ++ markerL ++ s1 ++ '/' :: s2 ++ post)
    ∧ (∀ pre s1 s2 post : List Char, s1 ≠ [] → s2 ≠ [] →
        (∀ c ∈ s1, c ≠ '/') → (∀ c ∈ s2, c ≠ '/') →
        (firstTwoSegs (pre ++ markerL ++ s1 ++ '/' :: s2 ++ post)).isSome)
    ∧ (∀ h : String, repoOfHref h = match firstTwoSegs h.toList with
        | none => none
        | some cap =>
          if ".com".toList.isSuffixOf cap then none else some (String.mk cap)) := by
  refine ⟨?_, ?_, ?_, firstTwoSegs_sound, firstTwoSegs_complete, repoOfHref_eq⟩
  · rw [extract_eq_filterMap, foldl_addRepo]
  · rw [extract_eq_filterMap, foldl_addRepo]
    exact List.nodup_reverse.mpr (List.nodup_dedup _)
  · intro h r hr
    rw [extract_eq_filterMap, foldl_addRepo]
    simp [List.mem_reverse, List.mem_dedup, List.filterMap_append, hr]

/-- C1, witness for the amended theorem: instantiates the hypothesis-
bearing parts at concrete inputs. -/
theorem extractGitHubRepos_spec_witness :
    "a/b" ∈ extractGitHubRepos ["x", "https://github.com/a/b"]
    ∧ (firstTwoSegs ("x".toList ++ markerL ++ ['a'] ++ '/' :: ['b'] ++ [])).isSome := by
  constructor
  · exact (extractGitHubRepos_spec ["x"]).2.2.1 "https://github.com/a/b" "a/b" (by rfl)
  · exact (extractGitHubRepos_spec []).2.2.2.2.1 "x".toList ['a'] ['b'] []
      (by decide) (by decide) (by decide) (by decide)

/-- C7: with no repositories held and none extracted, `fetchAllStats`
returns zero totals and performs no per-repository HTTP lookup at all
(the list of issued lookups is empty), whatever the per-repository
lookup oracle would have answered. -/
theorem fetchAllStats_empty (lookup : String → Option RepoStats) :
    fetchAllStats [] [] lookup = (⟨0, 0⟩, []) := rfl

/-- C8: `formatNumber` renders 999, 1000, 1500 and 1000000 as the spec
says, and in general renders values at least one million as one decimal
with an `M` suffix, values in [1000, 1000000) as one decimal with a `K`
suffix, and anything smaller as the plain integer. -/
theorem formatNumber_spec :
    formatNumber 999 = "999" ∧ formatNumber 1000 = "1.0K"
    ∧ formatNumber 1500 = "1.5K" ∧ formatNumber 1000000 = "1.0M"
    ∧ (∀ n, 1000000 ≤ n →
        ∃ a b, b < 10 ∧ formatNumber n = Nat.repr a ++ "." ++ Nat.repr b ++ "M")
    ∧ (∀ n, 1000 ≤ n → n < 1000000 →
        ∃ a b, b < 10 ∧ formatNumber n = Nat.repr a ++ "." ++ Nat.repr b ++ "K")
    ∧ (∀ n, n < 1000 → formatNumber n = Nat.repr n) := by
  refine ⟨rfl, rfl, rfl, rfl, ?_, ?_, ?_⟩
  · intro n hn
    refine ⟨(10 * n + 500000) / 1000000 / 10, (10 * n + 500000) / 1000000 % 10,
      Nat.mod_lt _ (by norm_num), ?_⟩
    simp [formatNumber, toFixed1, hn]
  · intro n h1 h2
    refine ⟨(10 * n + 500) / 1000 / 10, (10 * n + 500) / 1000 % 10,
      Nat.mod_lt _ (by norm_num), ?_⟩
    have hn : ¬ (1000000 ≤ n) := by omega
    simp [formatNumber, toFixed1, hn, h1]
  · intro n h
    have h1 : ¬ (1000000 ≤ n) := by omega
    have h2 : ¬ (1000 ≤ n) := by omega
    simp [formatNumber, h1, h2]

/-- C8, witness: the general clauses of `formatNumber_spec` instantiated
at 2500000, 4321 and 7. -/
theorem formatNumber_spec_witness :
    (∃ a b, b < 10 ∧ formatNumber 2500000 = Nat.repr a ++ "." ++ Nat.repr b ++ "M")
    ∧ (∃ a b, b < 10 ∧ formatNumber 4321 = Nat.repr a ++ "." ++ Nat.repr b ++ "K")
    ∧ formatNumber 7 = Nat.repr 7 :=
  ⟨formatNumber_spec.2.2.2.2.1 2500000 (by norm_num),
   formatNumber_spec.2.2.2.2.2.1 4321 (by norm_num) (by norm_num),
   formatNumber_spec.2.2.2.2.2.2 7 (by norm_num)⟩

end GithubStats

namespace Includes

/-- C2: `parseDateString` normalizes `"Jan 7, 2025"` and
`"January 7, 2025"` to `"2025-01-07"`; but on `"@@@ 7, 2025"` — which
the general date parse cannot parse and which is not a Month-Day-Year
form the fallback can parse (the month lookup fails) — it returns the
string `"2025-undefined-07"` rather than the `null` the claim requires:
the fallback never checks that the month lookup succeeded, so the
JavaScript `undefined` is coerced into the template literal. -/
theorem parseDateString_spec :
    parseDateString "Jan 7, 2025" = some "2025-01-07"
    ∧ parseDateString "January 7, 2025" = some "2025-01-07"
    ∧ jsNewDate "@@@ 7, 2025" = none
    ∧ parseDateString "@@@ 7, 2025" = some "2025-undefined-07"
    ∧ parseDateString "@@@ 7, 2025" ≠ none := by
  refine ⟨?_, ?_, ?_, ?_, ?_⟩ <;> decide

/-- C5, counterexample.  The claim says a non-success HTTP status leaves
the container untouched; but the code never consults `r.ok`, so fetching
the header fragment with a 404 response replaces the container's
original content with the error page's body. -/
theorem loadHeader_claim_false :
    failedFetch (FetchOutcome.response false "<h1>404 Not Found</h1>")
    ∧ loadHeader "original content" (FetchOutcome.response false "<h1>404 Not Found</h1>")
        = "<h1>404 Not Found</h1>"
    ∧ loadHeader "original content" (FetchOutcome.response false "<h1>404 Not Found</h1>")
        ≠ "original content" :=
  ⟨rfl, rfl, by decide⟩

/-- C5, amended: for each of the two placeholder containers, a network
error (rejected fetch) leaves the container's content untouched and the
empty `catch` handler surfaces no error; any HTTP response — success or
error status alike — replaces the container's content with the response
body, because the code never checks `r.ok`. -/
theorem loadPartials_spec (container body : String) (ok : Bool) :
    loadHeader container FetchOutcome.networkError = container
    ∧ loadFooter container FetchOutcome.networkError = container
    ∧ loadHeader container (FetchOutcome.response ok body) = body
    ∧ loadFooter container (FetchOutcome.response ok body) = body :=
  ⟨rfl, rfl, rfl, rfl⟩

/-- C3, counterexample.  The claim says every enrichment-fetch failure —
network error or non-success HTTP status — yields the post plus default
excerpt/category/read-time.  But on a resolved response with a
non-success status the code returns the bare post (`if (!response.ok)
return post;`), with no default fields added. -/
theorem enrichPostData_claim_false :
    enrichPostData samplePost (EnrichOutcome.response false ⟨none, none⟩) = samplePost
    ∧ (enrichPostData samplePost (EnrichOutcome.response false ⟨none, none⟩)).excerpt = none
    ∧ enrichPostData samplePost (EnrichOutcome.response false ⟨none, none⟩)
        ≠ { samplePost with
              excerpt := some defaultExcerpt,
              category := some (determineCategory samplePost.title ""),
              readTime := some "5 min read" } :=
  ⟨rfl, rfl, by decide⟩

/-- C3, amended: on a network error (rejected fetch) `enrichPostData`
returns the post with its original fields unchanged plus the default
excerpt, category and read-time; on a resolved response with a
non-success HTTP status it returns the post entirely unchanged, with no
defaults added. -/
theorem enrichPostData_failure_spec (post : Post) (doc : PostDoc) :
    enrichPostData post EnrichOutcome.networkError =
      { post with
          excerpt := some defaultExcerpt,
          category := some (determineCategory post.title ""),
          readTime := some "5 min read" }
    ∧ enrichPostData post (EnrichOutcome.response false doc) = post :=
  ⟨rfl, rfl⟩

/-- C9: the category chosen by `determineCategory` depends only on the
title (the `lowerBody` local is never read), always lies in the fixed
four-element set, and is the default `"deployment"` whenever no title
keyword matches. -/
theorem determineCategory_spec (title b1 b2 : String) :
    determineCategory title b1 = determineCategory title b2
    ∧ determineCategory title b1 ∈ ["tutorials", "optimization", "deployment", "research"]
    ∧ (anyCategoryKeyword title = false → determineCategory title b1 = "deployment") := by
  refine ⟨rfl, ?_, ?_⟩
  · simp only [determineCategory]
    repeat' split
    all_goals simp
  · intro h
    simp only [anyCategoryKeyword, Bool.or_eq_false_iff] at h
    simp [determineCategory, h]

/-- C9, witness: `determineCategory_spec` instantiated at a title with
no category keyword and two different bodies. -/
theorem determineCategory_spec_witness :
    determineCategory "Introducing MLC" "body one" = determineCategory "Introducing MLC" "body two"
    ∧ determineCategory "Introducing MLC" "body one"
        ∈ ["tutorials", "optimization", "deployment", "research"]
    ∧ determineCategory "Introducing MLC" "body one" = "deployment" := by
  obtain ⟨h1, h2, h3⟩ := determineCategory_spec "Introducing MLC" "body one" "body two"
  exact ⟨h1, h2, h3 (by decide)⟩

theorem chunks5_nil {α : Type} : chunks5 ([] : List α) = [] := by
  rw [chunks5]
  simp

theorem chunks5_cons {α : Type} (ps : List α) (h : ps ≠ []) :
    chunks5 ps = ps.take 5 :: chunks5 (ps.drop 5) := by
  conv_lhs => rw [chunks5]
  rw [if_neg (by simp [List.isEmpty_iff, h])]

theorem enrichSchedule_nil {α : Type} : enrichSchedule ([] : List α) = [] := by
  rw [enrichSchedule]
  simp

theorem enrichSchedule_cons {α : Type} (ps : List α) (h : ps ≠ []) :
    enrichSchedule ps = FetchEvent.batch (ps.take 5) ::
      (if 5 < ps.length then FetchEvent.pause 100 :: enrichSchedule (ps.drop 5) else []) := by
  conv_lhs => rw [enrichSchedule]
  rw [if_neg (by simp [List.isEmpty_iff, h])]

theorem chunks5_flatten_aux {α : Type} :
    ∀ (n : Nat) (ps : List α), ps.length ≤ n → (chunks5 ps).flatten = ps := by
  intro n
  induction n with
  | zero =>
    intro ps h
    have : ps = [] := List.length_eq_zero.mp (Nat.le_zero.mp h)
    subst this
    simp [chunks5_nil]
  | succ n ih =>
    intro ps h
    rcases eq_or_ne ps [] with rfl | hne
    · simp [chunks5_nil]
    · have hpos : 1 ≤ ps.length := List.length_pos.mpr hne
      have hlen : (ps.drop 5).length ≤ n := by
        simp only [List.length_drop]
        omega
      rw [chunks5_cons ps hne, List.flatten_cons, ih (ps.drop 5) hlen,
        List.take_append_drop]

theorem chunks5_length_aux {α : Type} :
    ∀ (n : Nat) (ps : List α), ps.length ≤ n →
      (chunks5 ps).length = (ps.length + 4) / 5 := by
  intro n
  induction n with
  | zero =>
    intro ps h
    have : ps = [] := List.length_eq_zero.mp (Nat.le_zero.mp h)
    subst this
    simp [chunks5_nil]
  | succ n ih =>
    intro ps h
    rcases eq_or_ne ps [] with rfl | hne
    · simp [chunks5_nil]
    · have hpos : 1 ≤ ps.length := List.length_pos.mpr hne
      have hlen : (ps.drop 5).length ≤ n := by
        simp only [List.length_drop]
        omega
      rw [chunks5_cons ps hne, List.length_cons, ih (ps.drop 5) hlen]
      simp only [List.length_drop]
      omega

theorem chunks5_getElem_aux {α : Type} :
    ∀ (n : Nat) (ps : List α), ps.length ≤ n → ∀ (i : Nat) (b : List α),
      (chunks5 ps)[i]? = some b → b.length = min 5 (ps.length - 5 * i) := by
  intro n
  induction n with
  | zero =>
    intro ps h i b hb
    have : ps = [] := List.length_eq_zero.mp (Nat.le_zero.mp h)
    subst this
    rw [chunks5_nil] at hb
    simp at hb
  | succ n ih =>
    intro ps h i b hb
    rcases eq_or_ne ps [] with rfl | hne
    · rw [chunks5_nil] at hb; simp at hb
    · have hpos : 1 ≤ ps.length := List.length_pos.mpr hne
      have hlen : (ps.drop 5).length ≤ n := by
        simp only [List.length_drop]
        omega
      rw [chunks5_cons ps hne] at hb
      cases i with
      | zero =>
        simp only [List.getElem?_cons_zero, Option.some.injEq] at hb
        subst hb
        simp [List.length_take]
      | succ i =>
        rw [List.getElem?_cons_succ] at hb
        have := ih (ps.drop 5) hlen i b hb
        rw [this, List.length_drop]
        congr 1
        omega

theorem enrichSchedule_eq_aux {α : Type} :
    ∀ (n : Nat) (ps : List α), ps.length ≤ n →
      enrichSchedule ps = pausesBetween (chunks5 ps) := by
  intro n
  induction n with
  | zero =>
    intro ps h
    have : ps = [] := List.length_eq_zero.mp (Nat.le_zero.mp h)
    subst this
    simp [enrichSchedule_nil, chunks5_nil, pausesBetween]
  | succ n ih =>
    intro ps h
    rcases eq_or_ne ps [] with rfl | hne
    · simp [enrichSchedule_nil, chunks5_nil, pausesBetween]
    · have hpos : 1 ≤ ps.length := List.length_pos.mpr hne
      have hlen : (ps.drop 5).length ≤ n := by
        simp only [List.length_drop]
        omega
      rw [enrichSchedule_cons ps hne, chunks5_cons ps hne]
      by_cases h5 : 5 < ps.length
      · have hdne : ps.drop 5 ≠ [] := by
          intro hd
          have := congrArg List.length hd
          simp only [List.length_drop, List.length_nil] at this
          omega
        rw [if_pos h5, ih (ps.drop 5) hlen, chunks5_cons (ps.drop 5) hdne]
        rfl
      · have hde : ps.drop 5 = [] := by
          apply List.eq_nil_of_length_eq_zero
          simp only [List.length_drop]
          omega
        rw [if_neg h5, hde, chunks5_nil, pausesBetween]

/-- C6: the enrichment loop of `fetchAllPosts` processes the date-sorted
posts in consecutive batches of 5 (each batch one concurrent
`Promise.all` group, the batch at index `i` holding
`min 5 (n - 5 * i)` posts, so the last holds `n mod 5` when that is
nonzero), with the 100 ms pause strictly between consecutive batches and
never after the last, and the enriched results concatenate in the
original order; for 12 posts this gives exactly the batches of sizes 5,
5, 2. -/
theorem fetchAllPosts_batching_spec {α β : Type} (ps : List α) (f : α → β) :
    enrichSchedule ps = pausesBetween (chunks5 ps)
    ∧ (chunks5 ps).flatten = ps
    ∧ ((chunks5 ps).map (List.map f)).flatten = ps.map f
    ∧ (chunks5 ps).length = (ps.length + 4) / 5
    ∧ (∀ (i : Nat) (b : List α), (chunks5 ps)[i]? = some b →
        b.length = min 5 (ps.length - 5 * i))
    ∧ (chunks5 ([0, 1, 2, 3, 4, 5, 6, 7, 8, 9, 10, 11] : List Nat)).map List.length
        = [5, 5, 2]
    ∧ enrichSchedule ([0, 1, 2, 3, 4, 5, 6, 7, 8, 9, 10, 11] : List Nat)
        = [FetchEvent.batch [0, 1, 2, 3, 4], FetchEvent.pause 100,
           FetchEvent.batch [5, 6, 7, 8, 9], FetchEvent.pause 100,
           FetchEvent.batch [10, 11]] := by
  refine ⟨enrichSchedule_eq_aux ps.length ps le_rfl,
    chunks5_flatten_aux ps.length ps le_rfl, ?_,
    chunks5_length_aux ps.length ps le_rfl,
    chunks5_getElem_aux ps.length ps le_rfl, ?_, ?_⟩
  · rw [← List.map_flatten, chunks5_flatten_aux ps.length ps le_rfl]
  · rw [chunks5_cons _ (by decide), chunks5_cons _ (by decide),
      chunks5_cons _ (by decide)]
    simp [chunks5_nil]
  · rw [enrichSchedule_cons _ (by decide), enrichSchedule_cons _ (by decide),
      enrichSchedule_cons _ (by decide)]
    simp

/-- C6, witness: the batch-size clause of `fetchAllPosts_batching_spec`
instantiated at the third batch of the 12-post example. -/
theorem fetchAllPosts_batching_spec_witness :
    ([10, 11] : List Nat).length
      = min 5 (([0, 1, 2, 3, 4, 5, 6, 7, 8, 9, 10, 11] : List Nat).length - 5 * 2) :=
  (fetchAllPosts_batching_spec [0, 1, 2, 3, 4, 5, 6, 7, 8, 9, 10, 11]
    (id : Nat → Nat)).2.2.2.2.1 2 [10, 11]
    (by rw [chunks5_cons _ (by decide), chunks5_cons _ (by decide),
          chunks5_cons _ (by decide)]
        simp [chunks5_nil])

/-- C10: `renderPosts` always drops the first element of the
category-filtered list (`filteredPosts.slice(1)`), so under a specific
category selection the most recent post of that category is omitted from
the grid; when that post is not the overall most recent (the featured
one, `posts[0]`), it is rendered nowhere on the page. -/
theorem renderPosts_drops_first_filtered (posts : List Post) (cat : String) (p : Post)
    (hcat : cat ≠ "all")
    (hp : (posts.filter (fun q => q.category == some cat)).head? = some p)
    (hnd : posts.Nodup)
    (hfeat : posts.head? ≠ some p) :
    gridPosts posts cat = (posts.filter (fun q => q.category == some cat)).tail
    ∧ p ∉ gridPosts posts cat
    ∧ featuredPost posts ≠ some p := by
  have hgrid : gridPosts posts cat
      = (posts.filter (fun q => q.category == some cat)).tail := by
    unfold gridPosts
    rw [if_neg hcat]
    exact List.drop_one _
  have hndf : (posts.filter (fun q => q.category == some cat)).Nodup :=
    hnd.filter _
  have hmem : ∀ (l : List Post), l.Nodup → l.head? = some p → p ∉ l.tail := by
    intro l hl hh
    cases l with
    | nil => simp at hh
    | cons x xs =>
      simp only [List.head?_cons, Option.some.injEq] at hh
      subst hh
      simp only [List.tail_cons]
      exact (List.nodup_cons.mp hl).1
  exact ⟨hgrid, by rw [hgrid]; exact hmem _ hndf hp, hfeat⟩

theorem valid_cases (p : Post) (h : validPost p = true) :
    p.date = none ∨ ∃ d v, p.date = some d ∧ dateVal d = some v := by
  rcases hd : p.date with _ | d
  · exact Or.inl rfl
  · rcases ho : dateVal d with _ | v
    · simp [validPost, hd, ho] at h
    · exact Or.inr ⟨d, v, rfl, ho⟩

theorem cmp_lt_ordered (a b : Post) (ha : validPost a = true) (hb : validPost b = true)
    (h : postCompare a b < 0) : postOrdered a b := by
  rcases valid_cases a ha with hda | ⟨da, va, hda, hva⟩
  · rcases valid_cases b hb with hdb | ⟨db, vb, hdb, hvb⟩
    · simp [postCompare, hda, hdb] at h
    · simp [postCompare, hda, hdb] at h
  · rcases valid_cases b hb with hdb | ⟨db, vb, hdb, hvb⟩
    · simp [postOrdered, hda, hdb]
    · simp only [postCompare, hda, hdb, hva, hvb] at h
      simp only [postOrdered, hda, hdb, hva, hvb, Option.some.injEq]
      intro x y hx hy
      omega

theorem cmp_not_lt_ordered (a b : Post) (ha : validPost a = true) (hb : validPost b = true)
    (h : ¬(postCompare a b < 0)) : postOrdered b a := by
  rcases valid_cases a ha with hda | ⟨da, va, hda, hva⟩
  · rcases valid_cases b hb with hdb | ⟨db, vb, hdb, hvb⟩
    · simp [postOrdered, hda, hdb]
    · simp [postOrdered, hda, hdb]
  · rcases valid_cases b hb with hdb | ⟨db, vb, hdb, hvb⟩
    · simp [postCompare, hda, hdb] at h
    · simp only [postCompare, hda, hdb, hva, hvb] at h
      simp only [postOrdered, hda, hdb, hva, hvb, Option.some.injEq]
      intro x y hx hy
      omega

theorem cmp_lt_trans (a b c : Post) (ha : validPost a = true) (hb : validPost b = true)
    (hc : validPost c = true) (hab : postCompare a b < 0)
    (hbc : postOrdered b c) : postOrdered a c := by
  rcases valid_cases a ha with hda | ⟨da, va, hda, hva⟩
  · rcases valid_cases b hb with hdb | ⟨db, vb, hdb, hvb⟩
    · simp [postCompare, hda, hdb] at hab
    · simp [postCompare, hda, hdb] at hab
  · rcases valid_cases c hc with hdc | ⟨dc, vc, hdc, hvc⟩
    · simp [postOrdered, hda, hdc]
    · rcases valid_cases b hb with hdb | ⟨db, vb, hdb, hvb⟩
      · simp [postOrdered, hdb, hdc] at hbc
      · simp only [postCompare, hda, hdb, hva, hvb] at hab
        simp only [postOrdered, hdb, hdc, hvb, hvc, Option.some.injEq] at hbc
        simp only [postOrdered, hda, hdc, hva, hvc, Option.some.injEq]
        intro x y hx hy
        have := hbc vb vc rfl rfl
        omega

theorem key_ne_of_lt (a b : Post) (ha : validPost a = true) (hb : validPost b = true)
    (hab : postCompare a b < 0) : postKey b ≠ postKey a := by
  rcases valid_cases a ha with hda | ⟨da, va, hda, hva⟩
  · rcases valid_cases b hb with hdb | ⟨db, vb, hdb, hvb⟩
    · simp [postCompare, hda, hdb] at hab
    · simp [postCompare, hda, hdb] at hab
  · rcases valid_cases b hb with hdb | ⟨db, vb, hdb, hvb⟩
    · simp [postKey, hda, hdb]
    · simp only [postCompare, hda, hdb, hva, hvb] at hab
      have hne : vb ≠ va := by omega
      simp [postKey, hda, hdb, hva, hvb, hne]

theorem key_ne_of_lt_ordered (a b c : Post) (ha : validPost a = true)
    (hb : validPost b = true) (hc : validPost c = true)
    (hab : postCompare a b < 0) (hbc : postOrdered b c) : postKey c ≠ postKey a := by
  rcases valid_cases a ha with hda | ⟨da, va, hda, hva⟩
  · rcases valid_cases b hb with hdb | ⟨db, vb, hdb, hvb⟩
    · simp [postCompare, hda, hdb] at hab
    · simp [postCompare, hda, hdb] at hab
  · rcases valid_cases c hc with hdc | ⟨dc, vc, hdc, hvc⟩
    · simp [postKey, hda, hdc]
    · rcases valid_cases b hb with hdb | ⟨db, vb, hdb, hvb⟩
      · simp [postOrdered, hdb, hdc] at hbc
      · simp only [postCompare, hda, hdb, hva, hvb] at hab
        simp only [postOrdered, hdb, hdc, hvb, hvc, Option.some.injEq] at hbc
        have h1 := hbc vb vc rfl rfl
        have hne : vc ≠ va := by omega
        simp [postKey, hda, hdc, hva, hvc, hne]

theorem mem_insertSorted (x w : Post) :
    ∀ (l : List Post), w ∈ insertSorted x l ↔ w = x ∨ w ∈ l := by
  intro l
  induction l with
  | nil => simp [insertSorted]
  | cons y ys ih =>
    unfold insertSorted
    split
    · simp [List.mem_cons]
    · simp only [List.mem_cons, ih]
      tauto

theorem perm_insertSorted (x : Post) :
    ∀ (l : List Post), List.Perm (insertSorted x l) (x :: l) := by
  intro l
  induction l with
  | nil => simp [insertSorted]
  | cons y ys ih =>
    unfold insertSorted
    split
    · exact List.Perm.refl _
    · exact (ih.cons y).trans (List.Perm.swap x y ys)

theorem insertSorted_sorted (x : Post) (hx : validPost x = true) :
    ∀ (l : List Post), (∀ y ∈ l, validPost y = true) → l.Pairwise postOrdered →
      (insertSorted x l).Pairwise postOrdered := by
  intro l
  induction l with
  | nil => intro _ _; simp [insertSorted]
  | cons y ys ih =>
    intro hv hp
    have hvy : validPost y = true := hv y (by simp)
    have hvys : ∀ z ∈ ys, validPost z = true := fun z hz => hv z (by simp [hz])
    rw [List.pairwise_cons] at hp
    obtain ⟨hyz, hys⟩ := hp
    unfold insertSorted
    split
    · rename_i hlt
      rw [List.pairwise_cons]
      refine ⟨?_, List.pairwise_cons.mpr ⟨hyz, hys⟩⟩
      intro z hz
      rcases List.mem_cons.mp hz with rfl | hz'
      · exact cmp_lt_ordered x z hx hvy hlt
      · exact cmp_lt_trans x y z hx hvy (hvys z hz') hlt (hyz z hz')
    · rename_i hge
      rw [List.pairwise_cons]
      refine ⟨?_, ih hvys hys⟩
      intro z hz
      rcases (mem_insertSorted x z ys).mp hz with rfl | hz'
      · exact cmp_not_lt_ordered z y hx hvy hge
      · exact hyz z hz'

theorem insertSorted_filter (x : Post) (hx : validPost x = true) (k : Option (Option Int)) :
    ∀ (l : List Post), (∀ y ∈ l, validPost y = true) → l.Pairwise postOrdered →
      (insertSorted x l).filter (fun p => postKey p == k)
        = l.filter (fun p => postKey p == k)
          ++ (if postKey x == k then [x] else []) := by
  intro l
  induction l with
  | nil =>
    intro _ _
    simp only [insertSorted, List.filter_nil, List.nil_append]
    cases h : postKey x == k <;> simp [List.filter_cons, h]
  | cons y ys ih =>
    intro hv hp
    have hvy : validPost y = true := hv y (by simp)
    have hvys : ∀ z ∈ ys, validPost z = true := fun z hz => hv z (by simp [hz])
    rw [List.pairwise_cons] at hp
    obtain ⟨hyz, hys⟩ := hp
    unfold insertSorted
    split
    · rename_i hlt
      by_cases hk : (postKey x == k) = true
      · have hkx : postKey x = k := by simpa using hk
        have hnone : (y :: ys).filter (fun p => postKey p == k) = [] := by
          rw [List.filter_eq_nil_iff]
          intro z hz
          rcases List.mem_cons.mp hz with rfl | hz'
          · simpa [hkx] using key_ne_of_lt x z hx hvy hlt
          · simpa [hkx] using
              key_ne_of_lt_ordered x y z hx hvy (hvys z hz') hlt (hyz z hz')
        rw [List.filter_cons_of_pos (by simpa using hk), hnone]
        simp [hk]
      · rw [List.filter_cons_of_neg (by simpa using hk)]
        simp [hk]
    · rename_i hge
      rw [List.filter_cons, List.filter_cons, ih hvys hys]
      cases hy : postKey y == k <;> simp [hy]

theorem foldl_insert_perm :
    ∀ (ps acc : List Post),
      List.Perm (ps.foldl (fun acc p => insertSorted p acc) acc) (acc ++ ps) := by
  intro ps
  induction ps with
  | nil => intro acc; simp
  | cons p ps ih =>
    intro acc
    refine (ih (insertSorted p acc)).trans ?_
    exact (((perm_insertSorted p acc).append_right ps).trans List.perm_middle.symm)

theorem foldl_insert_sorted :
    ∀ (ps acc : List Post), (∀ p ∈ ps, validPost p = true) →
      (∀ a ∈ acc, validPost a = true) → acc.Pairwise postOrdered →
      (ps.foldl (fun acc p => insertSorted p acc) acc).Pairwise postOrdered := by
  intro ps
  induction ps with
  | nil => intro acc _ _ h; exact h
  | cons p ps ih =>
    intro acc hps hacc hsort
    have hvp : validPost p = true := hps p (by simp)
    refine ih (insertSorted p acc) (fun q hq => hps q (by simp [hq])) ?_ ?_
    · intro a ha
      rcases (mem_insertSorted p a acc).mp ha with rfl | ha'
      · exact hvp
      · exact hacc a ha'
    · exact insertSorted_sorted p hvp acc hacc hsort

theorem foldl_insert_filter (k : Option (Option Int)) :
    ∀ (ps acc : List Post), (∀ p ∈ ps, validPost p = true) →
      (∀ a ∈ acc, validPost a = true) → acc.Pairwise postOrdered →
      (ps.foldl (fun acc p => insertSorted p acc) acc).filter (fun p => postKey p == k)
        = acc.filter (fun p => postKey p == k) ++ ps.filter (fun p => postKey p == k) := by
  intro ps
  induction ps with
  | nil => intro acc _ _ _; simp
  | cons p ps ih =>
    intro acc hps hacc hsort
    have hvp : validPost p = true := hps p (by simp)
    have step := ih (insertSorted p acc) (fun q hq => hps q (by simp [hq]))
      (fun a ha => by
        rcases (mem_insertSorted p a acc).mp ha with rfl | ha'
        · exact hvp
        · exact hacc a ha')
      (insertSorted_sorted p hvp acc hacc hsort)
    calc ((p :: ps).foldl (fun acc p => insertSorted p acc) acc).filter
          (fun p => postKey p == k)
        = (ps.foldl (fun acc p => insertSorted p acc)
            (insertSorted p acc)).filter (fun p => postKey p == k) := rfl
      _ = (insertSorted p acc).filter (fun p => postKey p == k)
            ++ ps.filter (fun p => postKey p == k) := step
      _ = (acc.filter (fun p => postKey p == k)
            ++ (if postKey p == k then [p] else []))
            ++ ps.filter (fun p => postKey p == k) := by
          rw [insertSorted_filter p hvp k acc hacc hsort]
      _ = acc.filter (fun p => postKey p == k)
            ++ (p :: ps).filter (fun p => postKey p == k) := by
          rw [List.filter_cons]
          cases hy : postKey p == k <;> simp [hy]

/-- C4: for every list of scraped posts whose normalized dates (when
present) are dates the comparator can evaluate, the sort performed by
`fetchPostsFromBlog` produces a permutation of the input that is
pairwise ordered descending by normalized date with every undated post
after every dated post (`postOrdered` forbids an undated post before a
dated one), and it is stable: for every sort key — a date value or
"undated" — the posts of that key appear in their original scrape
order. -/
theorem fetchPostsFromBlog_sorted (ps : List Post)
    (h : ∀ p ∈ ps, validPost p = true) :
    List.Perm (sortPosts ps) ps
    ∧ (sortPosts ps).Pairwise postOrdered
    ∧ (∀ k : Option (Option Int),
        (sortPosts ps).filter (fun p => postKey p == k)
          = ps.filter (fun p => postKey p == k)) := by
  unfold sortPosts
  refine ⟨?_, ?_, ?_⟩
  · simpa using foldl_insert_perm ps []
  · exact foldl_insert_sorted ps [] h (by simp) (by simp)
  · intro k
    simpa using foldl_insert_filter k ps [] h (by simp) (by simp)

/-- C4, witness: the sort applied to the three concrete posts `A`, `B`
(dated, `A` newer) and `U` (undated), which also evaluates to the
claimed order `[A, B, U]`. -/
theorem fetchPostsFromBlog_sorted_witness :
    (List.Perm (sortPosts [postB, postA, postU]) [postB, postA, postU]
      ∧ (sortPosts [postB, postA, postU]).Pairwise postOrdered
      ∧ (∀ k : Option (Option Int),
          (sortPosts [postB, postA, postU]).filter (fun p => postKey p == k)
            = [postB, postA, postU].filter (fun p => postKey p == k)))
    ∧ sortPosts [postB, postA, postU] = [postA, postB, postU] :=
  ⟨fetchPostsFromBlog_sorted [postB, postA, postU] (by decide), by decide⟩

/-- C10, witness: on a page whose posts are `A` (featured, `research`),
`B` and `C` (both `deployment`, `B` more recent), selecting the
`deployment` category renders only `C` in the grid and `A` as featured:
`B` appears nowhere. -/
theorem renderPosts_drops_first_filtered_witness :
    gridPosts [postA, postB, postC] "deployment"
      = ([postA, postB, postC].filter (fun q => q.category == some "deployment")).tail
    ∧ postB ∉ gridPosts [postA, postB, postC] "deployment"
    ∧ featuredPost [postA, postB, postC] ≠ some postB :=
  renderPosts_drops_first_filtered [postA, postB, postC] "deployment" postB
    (by decide) (by decide) (by decide) (by decide)

end Includes
